import Mathlib

/-!
Verification development for the `mfasaid` library (files `data.py` and
`model.py`).  The Python code is shallowly embedded: pandas DataFrames
become lists of timestamped rows over `ℚ` (a missing value — NaN — is
`Option.none`), exceptions become `Except` values, and in-place mutation
becomes explicit state passing in the source's statement order.
-/

namespace Said

/-- A time-indexed table: an ordered list of column names together with
rows, each row a timestamp paired with a valuation of the columns.
A cell that is missing (NaN in pandas) is `none`; a name that is not a
column of the frame valuates to `none` as well. -/
structure DataFrame where
  cols : List String
  rows : List (Nat × (String → Option ℚ))

/-- Errors raised by the `data` module (`DataException` subclasses). -/
inductive DataError where
  | dataOriginError
  | concurrentObservationError
  | typeError
  deriving DecidableEq, Repr

/-- `DataManager`: the managed table `_data` plus the origin ledger
`_data_origin`, the latter a list of (variable, origin) pairs. -/
structure DataManager where
  data : DataFrame
  origin : List (String × String)

/-- `DataManager.get_variable_names`: the list of column names of `_data`. -/
def DataManager.getVariableNames (dm : DataManager) : List String :=
  dm.data.cols

/-- The index of `DataManager.get_variable`: the timestamps at which the
variable has a non-missing observation (`dropna` keeps exactly those rows). -/
def DataManager.getVariableTimes (dm : DataManager) (v : String) : List Nat :=
  dm.data.rows.filterMap (fun r => if (r.2 v).isSome then some r.1 else none)

/-- `DataManager._check_for_concurrent_obs`: for every variable of `other`
that `self` also has, test whether any timestamp of a non-missing
observation of `other` is also a timestamp of a non-missing observation of
`self` (`get_variable` drops NaN rows before the index comparison). -/
def DataManager.hasConcurrentObs (self other : DataManager) : Bool :=
  (other.getVariableNames).any (fun v =>
    (self.getVariableNames).contains v &&
      (other.getVariableTimes v).any (fun t => (self.getVariableTimes v).contains t))

/-- `DataManager._check_origin`: the variable set of the origin ledger must
satisfy `origin ∩ data = origin ∪ data` (the source's formulation of set
equality); otherwise `DataOriginError` is raised. -/
def checkOrigin (data : DataFrame) (origin : List (String × String)) :
    Except DataError Unit :=
  let originVars : Finset String := (origin.map Prod.fst).toFinset
  let dataVars : Finset String := data.cols.toFinset
  if originVars ∩ dataVars = originVars ∪ dataVars then Except.ok ()
  else Except.error DataError.dataOriginError

/-- `DataManager.__init__`: check the origin against the data, then store
both (the data is deep-copied, which is the identity on pure values). -/
def DataManager.construct (data : DataFrame) (origin : List (String × String)) :
    Except DataError DataManager :=
  match checkOrigin data origin with
  | Except.error e => Except.error e
  | Except.ok _ => Except.ok ⟨data, origin⟩

/-- `pd.concat([df1, df2])` along the index: the columns are unioned and
the rows stacked; a row of one frame reads `none` at a column it lacks,
matching the NaN fill of pandas. -/
def concatDF (d1 d2 : DataFrame) : DataFrame :=
  ⟨d1.cols ++ d2.cols.filter (fun c => ¬ d1.cols.contains c), d1.rows ++ d2.rows⟩

/-- The first non-missing value of column `c` among the rows of `l` with
timestamp `t` (`GroupBy.first` skips nulls). -/
def firstObs (l : List (Nat × (String → Option ℚ))) (t : Nat) (c : String) : Option ℚ :=
  (l.filterMap (fun r => if r.1 = t then r.2 c else none)).head?

/-- The last non-missing value of column `c` among the rows of `l` with
timestamp `t` (`GroupBy.last` skips nulls). -/
def lastObs (l : List (Nat × (String → Option ℚ))) (t : Nat) (c : String) : Option ℚ :=
  (l.filterMap (fun r => if r.1 = t then r.2 c else none)).getLast?

/-- `df.groupby(level=0).first()`: one row per distinct timestamp holding,
per column, the first non-null value of its group. -/
def groupbyFirst (d : DataFrame) : DataFrame :=
  ⟨d.cols,
   ((d.rows.map Prod.fst).dedup).map
     (fun t => (t, fun c => if d.cols.contains c then firstObs d.rows t c else none))⟩

/-- `df.groupby(level=0).last()`: one row per distinct timestamp holding,
per column, the last non-null value of its group. -/
def groupbyLast (d : DataFrame) : DataFrame :=
  ⟨d.cols,
   ((d.rows.map Prod.fst).dedup).map
     (fun t => (t, fun c => if d.cols.contains c then lastObs d.rows t c else none))⟩

/-- `DataFrame.drop_duplicates` on the origin ledger: keep the first
occurrence of every (variable, origin) row. -/
def dedupOrigin (l : List (String × String)) : List (String × String) :=
  l.dedup

/-- `DataManager.add_data(other, keep_curr_obs)`, with the mutation of
`self` made explicit: the result is the outcome (normal return or raised
exception) together with the states of `self` and `other` at that point.
The source checks `other`'s origin, then (only for `keep_curr_obs=None`)
checks for concurrent observations — both before any assignment — then
concatenates the tables, groups by timestamp keeping first observations if
`keep_curr_obs` is truthy (only `some true`; `None` is falsy) and last
ones otherwise, and finally appends, deduplicates and reindexes the origin
ledger. -/
def DataManager.addData (self other : DataManager) (keepCurrObs : Option Bool) :
    Except DataError Unit × DataManager × DataManager :=
  match checkOrigin other.data other.origin with
  | Except.error e => (Except.error e, self, other)
  | Except.ok _ =>
    if keepCurrObs = none ∧ self.hasConcurrentObs other then
      (Except.error DataError.concurrentObservationError, self, other)
    else
      let concatenated := concatDF self.data other.data
      let newData :=
        if keepCurrObs = some true then groupbyFirst concatenated
        else groupbyLast concatenated
      let newOrigin := dedupOrigin (self.origin ++ other.origin)
      (Except.ok (), ⟨newData, newOrigin⟩, other)

/-- The ledger/table invariant: the variables named in the origin ledger
are exactly the columns of the managed table. -/
def DataManager.OriginInvariant (dm : DataManager) : Prop :=
  (dm.origin.map Prod.fst).toFinset = dm.data.cols.toFinset

lemma inter_eq_union_iff_eq {s t : Finset String} : s ∩ t = s ∪ t ↔ s = t := by
  constructor
  · intro h
    apply Finset.Subset.antisymm
    · calc s ⊆ s ∪ t := Finset.subset_union_left
        _ = s ∩ t := h.symm
        _ ⊆ t := Finset.inter_subset_right
    · calc t ⊆ s ∪ t := Finset.subset_union_right
        _ = s ∩ t := h.symm
        _ ⊆ s := Finset.inter_subset_left
  · intro h
    rw [h, Finset.inter_self, Finset.union_self]

lemma checkOrigin_ok_iff (d : DataFrame) (o : List (String × String)) :
    checkOrigin d o = Except.ok () ↔ (o.map Prod.fst).toFinset = d.cols.toFinset := by
  unfold checkOrigin
  by_cases h : (o.map Prod.fst).toFinset ∩ d.cols.toFinset
      = (o.map Prod.fst).toFinset ∪ d.cols.toFinset
  · simp [h, inter_eq_union_iff_eq.mp h]
  · simp [h, inter_eq_union_iff_eq.not.mp h]

lemma hasConcurrentObs_of_shared (self other : DataManager) (v : String)
    (hvs : v ∈ self.getVariableNames) (hvo : v ∈ other.getVariableNames)
    (t : Nat) (hts : t ∈ self.getVariableTimes v) (hto : t ∈ other.getVariableTimes v) :
    self.hasConcurrentObs other = true := by
  simp only [DataManager.hasConcurrentObs, List.any_eq_true, Bool.and_eq_true]
  exact ⟨v, hvo, by simpa [List.contains, List.elem_iff] using hvs,
    ⟨t, hto, by simpa [List.contains, List.elem_iff] using hts⟩⟩

/-- C1: if some variable shared by both managers has a non-missing
observation at the same timestamp in both, `add_data` with
`keep_curr_obs=None` raises `ConcurrentObservationError` and leaves both
the receiving manager and the argument manager unmodified. -/
theorem addData_concurrent_obs_raises_and_preserves
    (self other : DataManager)
    (hok : checkOrigin other.data other.origin = Except.ok ())
    (v : String) (hvs : v ∈ self.getVariableNames) (hvo : v ∈ other.getVariableNames)
    (t : Nat) (hts : t ∈ self.getVariableTimes v) (hto : t ∈ other.getVariableTimes v) :
    self.addData other none =
      (Except.error DataError.concurrentObservationError, self, other) := by
  have hco := hasConcurrentObs_of_shared self other v hvs hvo t hts hto
  unfold DataManager.addData
  rw [hok]
  simp [hco]

/-- Concrete manager with one variable `Q` observed (non-missing) at time 0. -/
def dmQ : DataManager :=
  ⟨⟨["Q"], [(0, fun c => if c = "Q" then some 3 else none)]⟩, [("Q", "a.txt")]⟩

/-- A second concrete manager also observing `Q` at time 0. -/
def dmQ2 : DataManager :=
  ⟨⟨["Q"], [(0, fun c => if c = "Q" then some 7 else none)]⟩, [("Q", "b.txt")]⟩

/-- Witness for C1: `dmQ` and `dmQ2` share the variable `Q`, both with a
non-missing observation at time 0, so merging with `keep_curr_obs=None`
errors and returns both managers unchanged. -/
theorem addData_concurrent_obs_raises_and_preserves_witness :
    dmQ.addData dmQ2 none =
      (Except.error DataError.concurrentObservationError, dmQ, dmQ2) :=
  addData_concurrent_obs_raises_and_preserves dmQ dmQ2 rfl "Q"
    (by decide) (by decide) 0 (by decide) (by decide)

lemma cols_concatDF_toFinset (d1 d2 : DataFrame) :
    (concatDF d1 d2).cols.toFinset = d1.cols.toFinset ∪ d2.cols.toFinset := by
  ext x
  simp only [concatDF, List.toFinset_append, Finset.mem_union, List.mem_toFinset,
    List.mem_filter]
  constructor
  · rintro (h | ⟨h, -⟩)
    · exact Or.inl h
    · exact Or.inr h
  · rintro (h | h)
    · exact Or.inl h
    · by_cases hd : x ∈ d1.cols
      · exact Or.inl hd
      · refine Or.inr ⟨h, ?_⟩
        simpa [List.contains, List.elem_iff] using hd

lemma dedupOrigin_vars_toFinset (l : List (String × String)) :
    ((dedupOrigin l).map Prod.fst).toFinset = (l.map Prod.fst).toFinset := by
  ext x
  simp [dedupOrigin, List.mem_map, List.mem_dedup]

/-- C2: the variables of the origin ledger equal the table's columns: a
successful construction establishes the invariant, a mismatched ledger
fails construction with `DataOriginError`, and a successful `add_data`
merge preserves the invariant. -/
theorem originInvariant_construction_and_merge :
    (∀ (df : DataFrame) (o : List (String × String)) (dm : DataManager),
        DataManager.construct df o = Except.ok dm → dm.OriginInvariant) ∧
    (∀ (df : DataFrame) (o : List (String × String)),
        (o.map Prod.fst).toFinset ≠ df.cols.toFinset →
        DataManager.construct df o = Except.error DataError.dataOriginError) ∧
    (∀ (s o : DataManager) (k : Option Bool) (s' o' : DataManager),
        s.addData o k = (Except.ok (), s', o') →
        s.OriginInvariant → s'.OriginInvariant) := by
  refine ⟨?_, ?_, ?_⟩
  · intro df o dm h
    unfold DataManager.construct at h
    rcases hco : checkOrigin df o with e | u
    · rw [hco] at h; exact absurd h (by simp)
    · rw [hco] at h
      have hdm : dm = ⟨df, o⟩ := by
        simpa using h.symm
      subst hdm
      exact (checkOrigin_ok_iff df o).mp hco
  · intro df o hne
    unfold DataManager.construct checkOrigin
    have : ¬ ((o.map Prod.fst).toFinset ∩ df.cols.toFinset
        = (o.map Prod.fst).toFinset ∪ df.cols.toFinset) :=
      fun h => hne (inter_eq_union_iff_eq.mp h)
    simp [this]
  · intro s o k s' o' h hs
    unfold DataManager.addData at h
    rcases hco : checkOrigin o.data o.origin with e | u
    · rw [hco] at h; exact absurd h (by simp)
    · rw [hco] at h
      have hoInv : o.OriginInvariant := (checkOrigin_ok_iff o.data o.origin).mp hco
      by_cases hc : k = none ∧ s.hasConcurrentObs o
      · rw [if_pos hc] at h
        exact absurd h (by simp)
      · rw [if_neg hc] at h
        simp only [Prod.mk.injEq] at h
        obtain ⟨-, hs', -⟩ := h
        rw [← hs']
        have hcols : (if k = some true then groupbyFirst (concatDF s.data o.data)
            else groupbyLast (concatDF s.data o.data)).cols
            = (concatDF s.data o.data).cols := by
          by_cases hk : k = some true <;> simp [hk, groupbyFirst, groupbyLast]
        show ((dedupOrigin (s.origin ++ o.origin)).map Prod.fst).toFinset
            = (if k = some true then groupbyFirst (concatDF s.data o.data)
                else groupbyLast (concatDF s.data o.data)).cols.toFinset
        rw [hcols, cols_concatDF_toFinset, dedupOrigin_vars_toFinset,
          List.map_append, List.toFinset_append, hs, hoInv]

/-- Witness for C2: each conjunct applied at concrete input — a
construction that succeeds and satisfies the invariant, a mismatched
construction that errors, and a merge whose result satisfies the
invariant. -/
theorem originInvariant_construction_and_merge_witness :
    dmQ.OriginInvariant ∧
    (DataManager.construct dmQ.data [("GH", "b.txt")]
      = Except.error DataError.dataOriginError) ∧
    (dmQ.addData dmQ2 (some true)).2.1.OriginInvariant := by
  obtain ⟨h1, h2, h3⟩ := originInvariant_construction_and_merge
  have hok : checkOrigin dmQ.data dmQ.origin = Except.ok () := by
    rw [checkOrigin_ok_iff]; decide
  have hInv : dmQ.OriginInvariant := by
    show (dmQ.origin.map Prod.fst).toFinset = dmQ.data.cols.toFinset
    decide
  refine ⟨h1 dmQ.data dmQ.origin dmQ ?_, h2 dmQ.data [("GH", "b.txt")] (by decide), ?_⟩
  · unfold DataManager.construct
    rw [hok]
  · exact h3 dmQ dmQ2 (some true) (dmQ.addData dmQ2 (some true)).2.1
      (dmQ.addData dmQ2 (some true)).2.2 rfl hInv

/-! ## Parameter stores (`ADVMParam`, `ADVMProcParam`) -/

/-- A Python value stored in a parameter dictionary.  The embedding keeps
the three shapes the validators distinguish: numbers (`ℚ`; note `np.float`
also accepts numeric strings, which the embedding does not model — a
string is always non-numeric here), strings and booleans. -/
inductive PyValue where
  | num (q : ℚ)
  | str (s : String)
  | bool (b : Bool)
  deriving DecidableEq, Repr

/-- The numeric reading of a value, mirroring Python's coercion of `bool`
to `1`/`0` in arithmetic comparisons; strings have none. -/
def PyValue.asNum : PyValue → Option ℚ
  | PyValue.num q => some q
  | PyValue.bool b => some (if b then 1 else 0)
  | PyValue.str _ => none

/-- Python `value == q` for a numeric literal `q` (numeric coercion,
strings never equal a number). -/
def PyValue.eqNum (v : PyValue) (q : ℚ) : Bool :=
  match v.asNum with
  | some x => x == q
  | none => false

/-- A parameter dictionary `_dict`: an association list keyed by the
parameter names. -/
def ParamDict := List (String × PyValue)

/-- `ADVMParam._check_key`: the key must already exist in `_dict`. -/
def checkKey (st : ParamDict) (key : String) : Bool :=
  st.any (fun e => e.1 == key)

/-- `self._dict[key] = value` on an existing key: replace its value.
(The validators guarantee the key is present before any assignment.) -/
def setParam (st : ParamDict) (key : String) (v : PyValue) : ParamDict :=
  st.map (fun e => if e.1 = key then (key, v) else e)

/-- `ADVMProcParam._check_value` as a Boolean validity test (`num_cells`
is the cell count fixed at construction): the key must exist, then the
`elif` chain applies the per-key predicate; any exception — `KeyError`,
`ValueError` or a `TypeError` from comparing a string — counts as
invalid. -/
def procCheckValue (numCells : ℚ) (st : ParamDict) (key : String) (value : PyValue) :
    Bool :=
  checkKey st key &&
  (if key = "Beam" then
      value.eqNum 1 || value.eqNum 2 || value == PyValue.str "Avg"
    else if key = "Moving Average Span" then
      match value.asNum with
      | some q => decide (0 ≤ q ∧ q ≤ 1)
      | none => false
    else if key = "Backscatter Values" then
      value == PyValue.str "SNR" || value == PyValue.str "Amp"
    else if key = "Intensity Scale Factor" then
      match value.asNum with
      | some q => decide (0 < q)
      | none => false
    else if key = "Minimum Cell Mid-Point Distance" then value.asNum.isSome
    else if key = "Maximum Cell Mid-Point Distance" then value.asNum.isSome
    else if key = "Minimum Number of Cells" then
      match value.asNum with
      | some q => decide (1 ≤ q ∧ q ≤ numCells)
      | none => false
    else if key = "Minimum Vbeam" then value.asNum.isSome
    else if key = "Near Field Correction" then
      match value with
      | PyValue.bool _ => true
      | _ => false
    else if key = "WCB Profile Adjustment" then
      match value with
      | PyValue.bool _ => true
      | _ => false
    else false)

/-- An invalid parameter assignment (`ValueError`/`KeyError`/`TypeError`
raised by `_check_value`). -/
inductive ParamError where
  | invalidValue
  deriving DecidableEq, Repr

/-- `ADVMParam.update`: iterate over the given entries in order; each is
validated and, if valid, assigned immediately; the first invalid entry
raises, leaving the assignments already made in place. -/
def paramUpdate (numCells : ℚ) (st : ParamDict) :
    List (String × PyValue) → Except ParamError Unit × ParamDict
  | [] => (Except.ok (), st)
  | (k, v) :: rest =>
    if procCheckValue numCells st k v then
      paramUpdate numCells (setParam st k v) rest
    else (Except.error ParamError.invalidValue, st)

/-- Assign a list of entries unconditionally, in order. -/
def applyEntries (st : ParamDict) (entries : List (String × PyValue)) : ParamDict :=
  entries.foldl (fun s e => setParam s e.1 e.2) st

lemma setParam_keys (st : ParamDict) (k : String) (v : PyValue) :
    (setParam st k v).map Prod.fst = st.map Prod.fst := by
  induction st with
  | nil => rfl
  | cons e rest ih =>
    by_cases h : e.1 = k <;> simp [setParam, h] <;>
      simpa [setParam] using ih

lemma checkKey_eq_keys_any (st : ParamDict) (key : String) :
    checkKey st key = (st.map Prod.fst).any (fun s => s == key) := by
  unfold checkKey
  induction st with
  | nil => rfl
  | cons e t ih => simp only [List.any_cons, List.map_cons, ih]

lemma procCheckValue_setParam (numCells : ℚ) (st : ParamDict)
    (a : String) (b : PyValue) (key : String) (value : PyValue) :
    procCheckValue numCells (setParam st a b) key value
      = procCheckValue numCells st key value := by
  have hkeys : checkKey (setParam st a b) key = checkKey st key := by
    rw [checkKey_eq_keys_any, checkKey_eq_keys_any, setParam_keys]
  unfold procCheckValue
  rw [hkeys]

/-- C9: `update` validates and assigns one entry at a time — if every
entry of a prefix is valid and the next entry is invalid, the call raises
with exactly the prefix applied to the store; the invalid entry and all
entries after it are not applied. -/
theorem paramUpdate_partial_application (numCells : ℚ) (st : ParamDict)
    (pre : List (String × PyValue)) (k : String) (v : PyValue)
    (rest : List (String × PyValue))
    (hpre : ∀ e ∈ pre, procCheckValue numCells st e.1 e.2 = true)
    (hfail : procCheckValue numCells st k v = false) :
    paramUpdate numCells st (pre ++ (k, v) :: rest)
      = (Except.error ParamError.invalidValue, applyEntries st pre) := by
  induction pre generalizing st with
  | nil =>
    simp only [List.nil_append, paramUpdate, hfail]
    simp [applyEntries]
  | cons e pre' ih =>
    have he : procCheckValue numCells st e.1 e.2 = true := hpre e (by simp)
    have hstep : paramUpdate numCells st ((e :: pre') ++ (k, v) :: rest)
        = paramUpdate numCells (setParam st e.1 e.2) (pre' ++ (k, v) :: rest) := by
      rcases e with ⟨ek, ev⟩
      simp only [List.cons_append, paramUpdate, he, if_pos]
      rfl
    rw [hstep, ih (setParam st e.1 e.2)
      (fun e' he' => by rw [procCheckValue_setParam]; exact hpre e' (by simp [he']))
      (by rw [procCheckValue_setParam]; exact hfail)]
    simp [applyEntries]

/-- A concrete processing dictionary for the witness. -/
def procDictW : ParamDict :=
  [("Beam", PyValue.num 1), ("Backscatter Values", PyValue.str "SNR"),
   ("Near Field Correction", PyValue.bool true)]

/-- Witness for C9: updating with a valid `Beam` entry followed by an
invalid `Near Field Correction` entry applies only the `Beam` entry. -/
theorem paramUpdate_partial_application_witness :
    paramUpdate 5 procDictW
        [("Beam", PyValue.num 2), ("Near Field Correction", PyValue.num 3),
         ("Backscatter Values", PyValue.str "Amp")]
      = (Except.error ParamError.invalidValue,
         applyEntries procDictW [("Beam", PyValue.num 2)]) :=
  paramUpdate_partial_application 5 procDictW [("Beam", PyValue.num 2)]
    "Near Field Correction" (PyValue.num 3)
    [("Backscatter Values", PyValue.str "Amp")]
    (by decide) (by decide)

/-! ## Copy-on-read accessors (C10)

The `get_data`, `get_dict`, `get_cell_range`, `get_wcb` and `get_scb`
accessors all end in `.copy(deep=True)` or `copy.deepcopy`.  To state that
the returned object is a copy and not a view, Python's heap is made
explicit: a store of objects addressed by references; a deep copy
allocates a fresh cell holding the value read. -/

/-- A heap object: a DataFrame or a parameter dictionary. -/
inductive PyObj where
  | frame (d : DataFrame)
  | pdict (entries : List (String × PyValue))

/-- Read the object at reference `r`. -/
def readRef (σ : List PyObj) (r : Nat) : Option PyObj :=
  σ.get? r

/-- Overwrite (mutate in place) the object at reference `r`. -/
def writeRef (σ : List PyObj) (r : Nat) (a : PyObj) : List PyObj :=
  σ.set r a

/-- `.copy(deep=True)` / `copy.deepcopy`: allocate a fresh cell holding
the value currently at `r` and return its reference. -/
def copyOut (σ : List PyObj) (r : Nat) : List PyObj × Nat :=
  match readRef σ r with
  | some a => (σ ++ [a], σ.length)
  | none => (σ ++ [PyObj.frame ⟨[], []⟩], σ.length)

/-- The references an `ADVMSedimentAcousticData` object holds to its
internal state: `_data`, `_proc_param._dict`, `_config_param._dict`,
`_cell_range`, `_wcb` and `_scb`. -/
structure ADVMDataRefs where
  dataRef : Nat
  procDictRef : Nat
  configDictRef : Nat
  cellRangeRef : Nat
  wcbRef : Nat
  scbRef : Nat

/-- `DataManager.get_data`: return `self._data.copy(deep=True)`. -/
def getDataM (σ : List PyObj) (m : ADVMDataRefs) : List PyObj × Nat :=
  copyOut σ m.dataRef

/-- `ADVMParam.get_dict` on the processing parameters:
`copy.deepcopy(self._dict)`. -/
def getProcDictM (σ : List PyObj) (m : ADVMDataRefs) : List PyObj × Nat :=
  copyOut σ m.procDictRef

/-- `ADVMSedimentAcousticData.get_cell_range`:
`self._cell_range.copy(deep=True)`. -/
def getCellRangeM (σ : List PyObj) (m : ADVMDataRefs) : List PyObj × Nat :=
  copyOut σ m.cellRangeRef

/-- `ADVMSedimentAcousticData.get_wcb`: `self._wcb.copy(deep=True)`. -/
def getWcbM (σ : List PyObj) (m : ADVMDataRefs) : List PyObj × Nat :=
  copyOut σ m.wcbRef

/-- `ADVMSedimentAcousticData.get_scb`: `self._scb.copy(deep=True)`. -/
def getScbM (σ : List PyObj) (m : ADVMDataRefs) : List PyObj × Nat :=
  copyOut σ m.scbRef

/-- The manager's observable internal state: the objects its six internal
references point at. -/
def observedState (σ : List PyObj) (m : ADVMDataRefs) :
    Option PyObj × Option PyObj × Option PyObj × Option PyObj × Option PyObj × Option PyObj :=
  (readRef σ m.dataRef, readRef σ m.procDictRef, readRef σ m.configDictRef,
   readRef σ m.cellRangeRef, readRef σ m.wcbRef, readRef σ m.scbRef)

/-- All six references of the manager are live in the store. -/
def ADVMDataRefs.Valid (m : ADVMDataRefs) (σ : List PyObj) : Prop :=
  m.dataRef < σ.length ∧ m.procDictRef < σ.length ∧ m.configDictRef < σ.length ∧
    m.cellRangeRef < σ.length ∧ m.wcbRef < σ.length ∧ m.scbRef < σ.length

lemma readRef_write_copyOut (σ : List PyObj) (src r : Nat) (hr : r < σ.length)
    (v : PyObj) :
    readRef (writeRef (copyOut σ src).1 (copyOut σ src).2 v) r = readRef σ r := by
  have hcopy1 : ∀ a : PyObj, writeRef (σ ++ [a]) σ.length v = σ ++ [v] := by
    intro a
    simp [writeRef, List.set_append_right, Nat.sub_self]
  have hread : readRef (σ ++ [v]) r = readRef σ r := by
    simp [readRef, List.getElem?_append_left hr]
  unfold copyOut
  rcases h : readRef σ src with _ | a <;> simp only [h] <;> rw [hcopy1, hread]

/-- C10: the five read accessors return deep copies — mutating the object
a call returns leaves every piece of the manager's observable internal
state (table, parameter dictionaries, cell range, WCB and SCB frames)
exactly as it was before the call. -/
theorem accessors_return_copies (σ : List PyObj) (m : ADVMDataRefs)
    (hv : m.Valid σ) :
    (∀ v : PyObj,
        observedState (writeRef (getDataM σ m).1 (getDataM σ m).2 v) m
          = observedState σ m) ∧
    (∀ v : PyObj,
        observedState (writeRef (getProcDictM σ m).1 (getProcDictM σ m).2 v) m
          = observedState σ m) ∧
    (∀ v : PyObj,
        observedState (writeRef (getCellRangeM σ m).1 (getCellRangeM σ m).2 v) m
          = observedState σ m) ∧
    (∀ v : PyObj,
        observedState (writeRef (getWcbM σ m).1 (getWcbM σ m).2 v) m
          = observedState σ m) ∧
    (∀ v : PyObj,
        observedState (writeRef (getScbM σ m).1 (getScbM σ m).2 v) m
          = observedState σ m) := by
  obtain ⟨h1, h2, h3, h4, h5, h6⟩ := hv
  refine ⟨fun v => ?_, fun v => ?_, fun v => ?_, fun v => ?_, fun v => ?_⟩ <;>
    · simp only [observedState, getDataM, getProcDictM, getCellRangeM, getWcbM, getScbM]
      rw [readRef_write_copyOut σ _ _ h1 v, readRef_write_copyOut σ _ _ h2 v,
        readRef_write_copyOut σ _ _ h3 v, readRef_write_copyOut σ _ _ h4 v,
        readRef_write_copyOut σ _ _ h5 v, readRef_write_copyOut σ _ _ h6 v]

/-- A concrete two-object store for the C10 witness (every reference of
the one-object manager points at cell 0 except the frames at cell 1). -/
def refsW : ADVMDataRefs := ⟨0, 1, 1, 0, 0, 0⟩

/-- The concrete store for the C10 witness. -/
def storeW : List PyObj := [PyObj.frame ⟨["Q"], []⟩, PyObj.pdict procDictW]

/-- Witness for C10: on the concrete store, mutating the copy returned by
each accessor leaves the observed internal state unchanged. -/
theorem accessors_return_copies_witness :
    (∀ v : PyObj,
        observedState (writeRef (getDataM storeW refsW).1 (getDataM storeW refsW).2 v) refsW
          = observedState storeW refsW) ∧
    (∀ v : PyObj,
        observedState
            (writeRef (getProcDictM storeW refsW).1 (getProcDictM storeW refsW).2 v) refsW
          = observedState storeW refsW) ∧
    (∀ v : PyObj,
        observedState
            (writeRef (getCellRangeM storeW refsW).1 (getCellRangeM storeW refsW).2 v) refsW
          = observedState storeW refsW) ∧
    (∀ v : PyObj,
        observedState (writeRef (getWcbM storeW refsW).1 (getWcbM storeW refsW).2 v) refsW
          = observedState storeW refsW) ∧
    (∀ v : PyObj,
        observedState (writeRef (getScbM storeW refsW).1 (getScbM storeW refsW).2 v) refsW
          = observedState storeW refsW) :=
  accessors_return_copies storeW refsW
    ⟨by decide, by decide, by decide, by decide, by decide, by decide⟩

/-! ## Acoustic correction rows (C3, C4, C5)

`_apply_minwcb_correction`, `_calc_sac`, `_calc_scb` and
`_single_cell_wcb_correction` all act row by row (one row per
observation, one entry per cell), so they are embedded as functions on a
single row: the cell ranges as a `List ℚ` and the WCB values as a
`List (Option ℚ)` (a NaN cell is `none`). -/

/-- The number of valid (non-NaN) cells of a row:
`np.sum(~np.isnan(row))`. -/
def validCount (row : List (Option ℚ)) : Nat :=
  row.countP (fun w => w.isSome)

/-- First index of the minimum of a list (`np.argmin` on NaN-free data
returns the first occurrence of the minimum). -/
def argminAux : List ℚ → Nat
  | [] => 0
  | [_] => 0
  | x :: y :: rest =>
    let j := argminAux (y :: rest)
    if x ≤ (y :: rest).getD j 0 then 0 else j + 1

/-- The minimum of a list (helper for relating `argminAux` to the spec's
wording). -/
def listMin : List ℚ → ℚ
  | [] => 0
  | [x] => x
  | x :: y :: rest => min x (listMin (y :: rest))

/-- `np.argmin` over a row that may contain NaN: NaN propagates through
the minimum reduction, so the index of the first NaN is returned when one
is present; otherwise the first index of the minimum. -/
def npArgmin (row : List (Option ℚ)) : Nat :=
  match row.findIdx? (fun w => w.isNone) with
  | some i => i
  | none => argminAux (row.filterMap id)

/-- `_apply_minwcb_correction`, one observation row: take `np.argmin` of
the row, step the index back one cell when the row has more than one
valid cell and the index is positive, read the cell range at the adjusted
index, mark the cells whose range exceeds it, clear the mask entirely
when exactly one cell is marked, and set the marked cells to NaN. -/
def applyMinwcbRow (rangeRow : List ℚ) (wcbRow : List (Option ℚ)) :
    List (Option ℚ) :=
  let minIdx := npArgmin wcbRow
  let adjIdx := if 1 < validCount wcbRow ∧ 0 < minIdx then minIdx - 1 else minIdx
  let minRange := rangeRow.getD adjIdx 0
  let bad := rangeRow.map (fun r => decide (minRange < r))
  let finalBad := if bad.count true = 1 then bad.map (fun _ => false) else bad
  (finalBad.zip wcbRow).map (fun q => if q.1 then none else q.2)

/-- Set to NaN every cell whose range exceeds the range of the cell at
`idx` (helper shared by the spec-modelled variants of the profile
adjustment). -/
def invalidateBeyond (rangeRow : List ℚ) (wcbRow : List (Option ℚ)) (idx : Nat) :
    List (Option ℚ) :=
  List.zipWith (fun r w => if rangeRow.getD idx 0 < r then none else w) rangeRow wcbRow

/-- The index of the first cell attaining the minimum WCB among the
row's valid cells (the claim's "cell index with the minimum
water-corrected backscatter"). -/
def specArgminValid (row : List (Option ℚ)) : Nat :=
  row.findIdx (fun w => w == some (listMin (row.filterMap id)))

/-- Modelled from the claim's wording of the profile adjustment: find the
minimum-WCB cell index, step back one cell when more than one cell is
valid and the index is not the first, invalidate every cell farther than
the adjusted boundary — except that the step-back is skipped for the row
when applying it would invalidate all of the row's cells. -/
def claimMinwcbRow (rangeRow : List ℚ) (wcbRow : List (Option ℚ)) :
    List (Option ℚ) :=
  let minIdx := specArgminValid wcbRow
  let adjIdx := if 1 < validCount wcbRow ∧ 0 < minIdx then minIdx - 1 else minIdx
  let candidate := invalidateBeyond rangeRow wcbRow adjIdx
  if validCount candidate = 0 then invalidateBeyond rangeRow wcbRow minIdx
  else candidate

/-- The boundary cell index of the amended wording: the index of the
row's first NaN cell when the row has any (NaN propagates through
`np.argmin`'s minimum reduction), otherwise the first index of the
minimum WCB value. -/
def amendedBoundaryIdx (row : List (Option ℚ)) : Nat :=
  match row.findIdx? (fun w => w.isNone) with
  | some i => i
  | none => specArgminValid row

/-- The amended wording of the profile adjustment: the boundary index is
the first NaN cell's index when the row has one, otherwise the first
index of the minimum WCB; the step-back and range-based invalidation are
as the claim states them, except that the correct exception is applied —
a row in which exactly one cell lies farther than the adjusted boundary
has no cells invalidated at all. -/
def amendedMinwcbRow (rangeRow : List ℚ) (wcbRow : List (Option ℚ)) :
    List (Option ℚ) :=
  let minIdx := amendedBoundaryIdx wcbRow
  let adjIdx := if 1 < validCount wcbRow ∧ 0 < minIdx then minIdx - 1 else minIdx
  if rangeRow.countP (fun r => rangeRow.getD adjIdx 0 < r) = 1 then wcbRow
  else invalidateBeyond rangeRow wcbRow adjIdx

/-- C3 counterexample, two divergences.  Exception clause: on the
all-valid row with WCB `[5, 4, 3]` at ranges `[1, 2, 3]`, the claim
invalidates the last cell (stepping the boundary back from cell 2 to
cell 1 would not invalidate all cells), but the code leaves the row
untouched, because its actual exception fires whenever exactly one cell
lies beyond the adjusted boundary.  Boundary index: on the row
`[NaN, 5, 4]`, `np.argmin` returns the first-NaN index 0 and the code
invalidates the whole row, while the claim's minimum-WCB index is 2,
stepped back to 1, leaving `[NaN, 5, NaN]`. -/
theorem applyMinwcb_claim_counterexample :
    applyMinwcbRow [1, 2, 3] [some 5, some 4, some 3]
        = [some 5, some 4, some 3] ∧
    claimMinwcbRow [1, 2, 3] [some 5, some 4, some 3]
        = [some 5, some 4, none] ∧
    applyMinwcbRow [1, 2, 3] [some 5, some 4, some 3]
        ≠ claimMinwcbRow [1, 2, 3] [some 5, some 4, some 3] ∧
    applyMinwcbRow [1, 2, 3] [none, some 5, some 4]
        = [none, none, none] ∧
    claimMinwcbRow [1, 2, 3] [none, some 5, some 4]
        = [none, some 5, none] ∧
    applyMinwcbRow [1, 2, 3] [none, some 5, some 4]
        ≠ claimMinwcbRow [1, 2, 3] [none, some 5, some 4] := by
  decide

lemma argminAux_getD : ∀ l : List ℚ, l ≠ [] → l.getD (argminAux l) 0 = listMin l
  | [], h => absurd rfl h
  | [x], _ => rfl
  | x :: y :: rest, _ => by
    have ih := argminAux_getD (y :: rest) (by simp)
    simp only [argminAux, listMin]
    by_cases hle : x ≤ (y :: rest).getD (argminAux (y :: rest)) 0
    · rw [if_pos hle]
      simp only [List.getD_cons_zero]
      rw [ih] at hle
      exact (min_eq_left hle).symm
    · rw [if_neg hle]
      simp only [List.getD_cons_succ]
      rw [ih]
      rw [ih] at hle
      exact (min_eq_right (le_of_not_le hle)).symm

lemma argminAux_eq_findIdx_min :
    ∀ l : List ℚ, l ≠ [] → argminAux l = l.findIdx (fun v => v == listMin l)
  | [], h => absurd rfl h
  | [x], _ => by simp [argminAux, listMin, List.findIdx_cons]
  | x :: y :: rest, _ => by
    have ih := argminAux_eq_findIdx_min (y :: rest) (by simp)
    have ihv := argminAux_getD (y :: rest) (by simp)
    simp only [argminAux, listMin]
    by_cases hle : x ≤ (y :: rest).getD (argminAux (y :: rest)) 0
    · rw [if_pos hle]
      rw [ihv] at hle
      have hx : x = min x (listMin (y :: rest)) := (min_eq_left hle).symm
      rw [List.findIdx_cons]
      simp [← hx]
    · rw [if_neg hle]
      rw [ihv] at hle
      have hmin : min x (listMin (y :: rest)) = listMin (y :: rest) :=
        min_eq_right (le_of_not_le hle)
      rw [List.findIdx_cons, hmin]
      have hxne : (x == listMin (y :: rest)) = false := by
        simp only [beq_eq_false_iff_ne, ne_eq]
        intro hx
        exact hle (le_of_eq hx)
      simp [hxne, ih]

lemma count_true_map (f : ℚ → Bool) (l : List ℚ) :
    (l.map f).count true = l.countP f := by
  induction l with
  | nil => rfl
  | cons a l ih =>
    cases h : f a <;> simp [List.count_cons, List.countP_cons, h, ih]

lemma maskZip_eq_zipWith (p : ℚ → Bool) (r : List ℚ) (w : List (Option ℚ)) :
    ((r.map p).zip w).map (fun q => if q.1 then none else q.2)
      = List.zipWith (fun x y => if p x then none else y) r w := by
  induction r generalizing w with
  | nil => simp
  | cons a r ih =>
    cases w with
    | nil => simp
    | cons b w => simp [ih]

lemma falseMaskZip (bs : List Bool) (w : List (Option ℚ))
    (hbs : ∀ b ∈ bs, b = false) (hlen : bs.length = w.length) :
    (bs.zip w).map (fun q => if q.1 then none else q.2) = w := by
  induction bs generalizing w with
  | nil =>
    cases w with
    | nil => rfl
    | cons b w => simp at hlen
  | cons a bs ih =>
    cases w with
    | nil => simp at hlen
    | cons b w =>
      have ha : a = false := hbs a (by simp)
      have hlen' : bs.length = w.length := by simpa using hlen
      simp [ha, ih w (fun x hx => hbs x (by simp [hx])) hlen']

lemma all_some_filterMap (w : List (Option ℚ)) (hall : ∀ x ∈ w, x.isSome) :
    (w.filterMap id).map some = w := by
  induction w with
  | nil => rfl
  | cons a w ih =>
    have ha : a.isSome := hall a (by simp)
    rcases a with _ | v
    · simp at ha
    · simp only [List.filterMap_cons, id]
      simpa using ih (fun x hx => hall x (by simp [hx]))

lemma findIdx_map_some (l : List ℚ) (q : Option ℚ → Bool) :
    (l.map some).findIdx q = l.findIdx (fun x => q (some x)) := by
  induction l with
  | nil => rfl
  | cons a l ih => cases h : q (some a) <;> simp [List.findIdx_cons, h, ih]

lemma argminAux_filterMap_eq_spec (w : List (Option ℚ)) (hall : ∀ x ∈ w, x.isSome) :
    argminAux (w.filterMap id) = specArgminValid w := by
  by_cases hw : w.filterMap id = []
  · have hnil : w = [] := by
      have := all_some_filterMap w hall
      rw [hw] at this
      simpa using this.symm
    subst hnil
    rfl
  · have hne : w.filterMap id ≠ [] := hw
    unfold specArgminValid
    have hrw : w.findIdx (fun x => x == some (listMin (w.filterMap id)))
        = ((w.filterMap id).map some).findIdx
            (fun x => x == some (listMin (w.filterMap id))) := by
      rw [all_some_filterMap w hall]
    rw [hrw, findIdx_map_some, argminAux_eq_findIdx_min (w.filterMap id) hne]
    congr 1

lemma npArgmin_eq_amendedBoundaryIdx (w : List (Option ℚ)) :
    npArgmin w = amendedBoundaryIdx w := by
  cases h : w.findIdx? (fun x => x.isNone) with
  | none =>
    have hall : ∀ x ∈ w, x.isSome := by
      intro x hx
      have := List.findIdx?_eq_none_iff.mp h x hx
      simpa using this
    unfold npArgmin amendedBoundaryIdx
    rw [h]
    exact argminAux_filterMap_eq_spec w hall
  | some i =>
    unfold npArgmin amendedBoundaryIdx
    rw [h]

/-- C3 (amended): for every observation row (NaN cells included), the
profile adjustment equals the amended description: the boundary index is
the first NaN cell's index when the row has one, otherwise the first
index of the minimum WCB; step back one cell when more than one valid
cell and the index is positive; invalidate every cell farther than the
adjusted boundary — except that a row in which exactly one cell lies
farther than the boundary is left completely unchanged. -/
theorem applyMinwcb_eq_amended (rangeRow : List ℚ) (wcbRow : List (Option ℚ))
    (hlen : rangeRow.length = wcbRow.length) :
    applyMinwcbRow rangeRow wcbRow = amendedMinwcbRow rangeRow wcbRow := by
  have hmain : ∀ idx : Nat,
      (((if (rangeRow.map (fun r => decide (rangeRow.getD idx 0 < r))).count true = 1
          then (rangeRow.map (fun r => decide (rangeRow.getD idx 0 < r))).map
            (fun _ => false)
          else rangeRow.map (fun r => decide (rangeRow.getD idx 0 < r))).zip
            wcbRow).map (fun q => if q.1 then none else q.2))
        = if rangeRow.countP (fun r => decide (rangeRow.getD idx 0 < r)) = 1 then wcbRow
          else invalidateBeyond rangeRow wcbRow idx := by
    intro idx
    rw [count_true_map]
    by_cases hone : rangeRow.countP (fun r => decide (rangeRow.getD idx 0 < r)) = 1
    · rw [if_pos hone, if_pos hone]
      apply falseMaskZip
      · intro b hb
        simp only [List.mem_map] at hb
        obtain ⟨-, -, h⟩ := hb
        exact h.symm
      · simpa using hlen
    · rw [if_neg hone, if_neg hone, maskZip_eq_zipWith]
      unfold invalidateBeyond
      congr 1
      funext x y
      simp
  simp only [applyMinwcbRow, amendedMinwcbRow, npArgmin_eq_amendedBoundaryIdx wcbRow]
  exact hmain _

/-- Witness for the amended C3 theorem: the row `[5, 1, 4]` at ranges
`[1, 2, 3]` (the boundary steps back from cell 1 to cell 0 and both
farther cells are invalidated in code and description alike), and the
NaN-bearing row `[NaN, 5, 4]` (first-NaN boundary at cell 0, whole row
invalidated by both). -/
theorem applyMinwcb_eq_amended_witness :
    applyMinwcbRow [1, 2, 3] [some 5, some 1, some 4]
        = amendedMinwcbRow [1, 2, 3] [some 5, some 1, some 4] ∧
    applyMinwcbRow [1, 2, 3] [none, some 5, some 4]
        = amendedMinwcbRow [1, 2, 3] [none, some 5, some 4] :=
  ⟨applyMinwcb_eq_amended [1, 2, 3] [some 5, some 1, some 4] (by decide),
   applyMinwcb_eq_amended [1, 2, 3] [none, some 5, some 4] (by decide)⟩

/-- `_single_cell_wcb_correction`, one observation row: a row with
exactly one valid WCB cell has its SCB row replaced by the WCB row. -/
def singleCellWcbCorrectionRow (wcbRow scbRow : List (Option ℚ)) :
    List (Option ℚ) :=
  if validCount wcbRow = 1 then wcbRow else scbRow

/-- `_calc_scb`, one observation row: `scb = wcb + 2 * sac * cell_range`
with NaN propagation, then the single-valid-cell correction. -/
def calcScbRow (wcbRow : List (Option ℚ)) (sac : Option ℚ) (rangeRow : List ℚ) :
    List (Option ℚ) :=
  let scb := List.zipWith
    (fun w r =>
      match w, sac with
      | some wv, some s => some (wv + 2 * s * r)
      | _, _ => none)
    wcbRow rangeRow
  singleCellWcbCorrectionRow wcbRow scb

/-- C4: an observation row with exactly one valid WCB cell has its SCB
row equal to the WCB row exactly, for every SAC value (present or NaN)
and every cell-range row. -/
theorem scb_single_cell_passthrough (wcbRow : List (Option ℚ)) (sac : Option ℚ)
    (rangeRow : List ℚ) (hone : validCount wcbRow = 1) :
    calcScbRow wcbRow sac rangeRow = wcbRow := by
  unfold calcScbRow singleCellWcbCorrectionRow
  rw [if_pos hone]

/-- Witness for C4: the row `[5, NaN]` with a NaN SAC passes through
unchanged. -/
theorem scb_single_cell_passthrough_witness :
    calcScbRow [some 5, none] none [1, 2] = [some 5, none] :=
  scb_single_cell_passthrough [some 5, none] none [1, 2] (by decide)

/-- Arithmetic mean (`np.mean`). -/
def listMean (l : List ℚ) : ℚ :=
  l.sum / l.length

/-- Population variance (`np.var`): the mean of squared deviations from
the mean. -/
def npVar (l : List ℚ) : ℚ :=
  listMean (l.map (fun x => (x - listMean l) ^ 2))

/-- The (range, WCB) pairs of the valid cells of a row (the cells kept by
`fit_index = ~np.isnan(wcb[row_index, :])`). -/
def validPairs (wcbRow : List (Option ℚ)) (rangeRow : List ℚ) : List (ℚ × ℚ) :=
  (rangeRow.zip wcbRow).filterMap (fun q => q.2.map (fun w => (q.1, w)))

/-- `_calc_sac`, one observation row: when more than one cell is valid,
the slope of WCB against cell range is `cov(x, y) / var(x)` with
`cov = mean(x*y) - mean(x)*mean(y)`, and the SAC is `-0.5 * slope`;
otherwise the row's SAC stays NaN. -/
def calcSacRow (wcbRow : List (Option ℚ)) (rangeRow : List ℚ) : Option ℚ :=
  let pts := validPairs wcbRow rangeRow
  if 1 < pts.length then
    let x := pts.map Prod.fst
    let y := pts.map Prod.snd
    let covXY := listMean (pts.map (fun q => q.1 * q.2)) - listMean x * listMean y
    some (-(1 / 2) * (covXY / npVar x))
  else none

/-- The ordinary least-squares slope of the points, in the standard
closed form over sums (the spec's "least-squares slope of WCB vs. cell
range"). -/
def olsSlope (pts : List (ℚ × ℚ)) : ℚ :=
  let n : ℚ := pts.length
  let sx := (pts.map Prod.fst).sum
  let sy := (pts.map Prod.snd).sum
  let sxy := (pts.map (fun q => q.1 * q.2)).sum
  let sxx := (pts.map (fun q => q.1 ^ 2)).sum
  (n * sxy - sx * sy) / (n * sxx - sx ^ 2)

lemma sum_sq_dev (l : List ℚ) (m : ℚ) :
    (l.map (fun x => (x - m) ^ 2)).sum
      = (l.map (fun x => x ^ 2)).sum - 2 * m * l.sum + l.length * m ^ 2 := by
  induction l with
  | nil => simp
  | cons a l ih =>
    simp only [List.map_cons, List.sum_cons, List.length_cons, ih]
    push_cast
    ring

lemma div_div_cancel_common (a b c : ℚ) (hc : c ≠ 0) : (a / c) / (b / c) = a / b := by
  by_cases hb : b = 0
  · simp [hb]
  · field_simp

lemma npVar_eq (l : List ℚ) :
    npVar l = ((l.length : ℚ) * (l.map (fun x => x ^ 2)).sum - l.sum ^ 2)
      / (l.length : ℚ) ^ 2 := by
  rcases l with _ | ⟨a, t⟩
  · simp [npVar, listMean]
  · have hn : (((a :: t).length : ℚ)) ≠ 0 := by
      simp only [List.length_cons]
      push_cast
      positivity
    unfold npVar listMean
    rw [sum_sq_dev, List.length_map]
    field_simp
    ring

lemma cov_eq (pts : List (ℚ × ℚ)) (hne : pts ≠ []) :
    listMean (pts.map (fun q => q.1 * q.2))
      - listMean (pts.map Prod.fst) * listMean (pts.map Prod.snd)
    = ((pts.length : ℚ) * (pts.map (fun q => q.1 * q.2)).sum
        - (pts.map Prod.fst).sum * (pts.map Prod.snd).sum) / (pts.length : ℚ) ^ 2 := by
  have hn : ((pts.length : ℚ)) ≠ 0 := by
    have : pts.length ≠ 0 := fun h => hne (List.length_eq_zero.mp h)
    exact_mod_cast this
  unfold listMean
  rw [List.length_map, List.length_map, List.length_map]
  field_simp
  ring

/-- C5: per observation row, the SAC equals `-0.5` times the ordinary
least-squares slope of WCB against cell range over the row's valid cells
whenever at least two cells are valid, and is NaN when fewer than two
are. -/
theorem sac_is_neg_half_ols_slope (wcbRow : List (Option ℚ)) (rangeRow : List ℚ) :
    (2 ≤ (validPairs wcbRow rangeRow).length →
      calcSacRow wcbRow rangeRow
        = some (-(1 / 2) * olsSlope (validPairs wcbRow rangeRow))) ∧
    ((validPairs wcbRow rangeRow).length < 2 →
      calcSacRow wcbRow rangeRow = none) := by
  constructor
  · intro h2
    have hlt : 1 < (validPairs wcbRow rangeRow).length := h2
    have hne : validPairs wcbRow rangeRow ≠ [] := by
      intro h
      rw [h] at hlt
      simp at hlt
    have hn : (((validPairs wcbRow rangeRow).length : ℚ)) ≠ 0 := by
      have : (validPairs wcbRow rangeRow).length ≠ 0 := by omega
      exact_mod_cast this
    simp only [calcSacRow]
    rw [if_pos hlt]
    refine congrArg some (congrArg (-(1 / 2) * ·) ?_)
    rw [cov_eq _ hne, npVar_eq]
    simp only [List.length_map, List.map_map, Function.comp]
    rw [div_div_cancel_common _ _ _ (by positivity)]
    simp only [olsSlope]
    rfl
  · intro hlt
    unfold calcSacRow
    rw [if_neg (by omega)]

/-- Witness for C5: the row with valid WCB `[1, 2]` at ranges `[1, 2]`
has OLS slope 1 and SAC `-1/2`; a row with a single valid cell has NaN
SAC. -/
theorem sac_is_neg_half_ols_slope_witness :
    calcSacRow [some 1, some 2] [1, 2]
        = some (-(1 / 2) * olsSlope (validPairs [some 1, some 2] [1, 2])) ∧
    calcSacRow [some 1, none] [1, 2] = none :=
  ⟨(sac_is_neg_half_ols_slope [some 1, some 2] [1, 2]).1 (by decide),
   (sac_is_neg_half_ols_slope [some 1, none] [1, 2]).2 (by decide)⟩

/-! ## Compound rating model segments (C6, C7)

Breakpoints are floats bracketed by `-inf` and `inf`; explanatory values
are floats that may be NaN.  `XQ` is the extended value type with IEEE
comparison semantics (every comparison against NaN is false). -/

/-- A float value: finite (as `ℚ`), an infinity, or NaN. -/
inductive XQ where
  | ninf
  | fin (q : ℚ)
  | inf
  | nan
  deriving DecidableEq, Repr

/-- IEEE `<=` on float values. -/
def XQ.le : XQ → XQ → Bool
  | XQ.nan, _ => false
  | _, XQ.nan => false
  | XQ.ninf, _ => true
  | _, XQ.ninf => false
  | XQ.fin a, XQ.fin b => a ≤ b
  | _, XQ.inf => true
  | XQ.inf, XQ.fin _ => false

/-- IEEE `<` on float values. -/
def XQ.lt : XQ → XQ → Bool
  | XQ.nan, _ => false
  | _, XQ.nan => false
  | XQ.ninf, XQ.ninf => false
  | XQ.ninf, _ => true
  | _, XQ.ninf => false
  | XQ.fin a, XQ.fin b => a < b
  | XQ.fin _, XQ.inf => true
  | XQ.inf, _ => false

/-- Segment membership as evaluated by `CompoundRatingModel._create_model`:
`(x >= breakpoints[i]) & (x < breakpoints[i+1])`. -/
def fitSegmentMember (breakpoints : List XQ) (i : Nat) (x : XQ) : Bool :=
  (breakpoints.getD i XQ.nan).le x && x.lt (breakpoints.getD (i + 1) XQ.nan)

/-- Segment membership as evaluated by
`CompoundRatingModel.predict_response_variable`:
`(breakpoints[i] <= x) & (x < breakpoints[i+1])`. -/
def predictSegmentMember (breakpoints : List XQ) (i : Nat) (x : XQ) : Bool :=
  (breakpoints.getD i XQ.nan).le x && x.lt (breakpoints.getD (i + 1) XQ.nan)

/-- C6: segment membership is the half-open interval
`[breakpoint_i, breakpoint_{i+1})` in both segment fitting and prediction
dispatch — the two sites evaluate the same predicate, membership of a
finite value between finite breakpoints is exactly `low ≤ x ∧ x < high`,
and for breakpoints `[-inf, 5, inf]` the value 5 belongs to the segment
`[5, inf)` and not to `[-inf, 5)`. -/
theorem segment_membership_half_open :
    (∀ (bps : List XQ) (i : Nat) (x : XQ),
        fitSegmentMember bps i x = predictSegmentMember bps i x) ∧
    (∀ (bps : List XQ) (i : Nat) (q lo hi : ℚ),
        bps.getD i XQ.nan = XQ.fin lo → bps.getD (i + 1) XQ.nan = XQ.fin hi →
        (fitSegmentMember bps i (XQ.fin q) = true ↔ lo ≤ q ∧ q < hi)) ∧
    fitSegmentMember [XQ.ninf, XQ.fin 5, XQ.inf] 1 (XQ.fin 5) = true ∧
    fitSegmentMember [XQ.ninf, XQ.fin 5, XQ.inf] 0 (XQ.fin 5) = false ∧
    predictSegmentMember [XQ.ninf, XQ.fin 5, XQ.inf] 1 (XQ.fin 5) = true ∧
    predictSegmentMember [XQ.ninf, XQ.fin 5, XQ.inf] 0 (XQ.fin 5) = false := by
  refine ⟨fun bps i x => rfl, fun bps i q lo hi hlo hhi => ?_, by decide, by decide,
    by decide, by decide⟩
  rw [fitSegmentMember, hlo, hhi]
  simp [XQ.le, XQ.lt]

/-- Witness for C6: the finite segment `[1, 3)` contains 2, and the two
membership predicates agree there. -/
theorem segment_membership_half_open_witness :
    fitSegmentMember [XQ.fin 1, XQ.fin 3] 0 (XQ.fin 2)
        = predictSegmentMember [XQ.fin 1, XQ.fin 3] 0 (XQ.fin 2) ∧
    fitSegmentMember [XQ.fin 1, XQ.fin 3] 0 (XQ.fin 2) = true :=
  ⟨segment_membership_half_open.1 [XQ.fin 1, XQ.fin 3] 0 (XQ.fin 2),
   (segment_membership_half_open.2.1 [XQ.fin 1, XQ.fin 3] 0 2 1 3 rfl rfl).mpr
     (by norm_num)⟩

/-- `CompoundRatingModel.predict_response_variable`: for each segment
`i`, select the input rows whose explanatory value lies in
`[breakpoints[i], breakpoints[i+1])`, hand them to the segment's nested
model (`preds i`, the external regression engine's prediction) and
concatenate the per-segment results with `pd.concat` in segment order.
Rows are (original index, explanatory value) pairs. -/
def compoundPredict (bps : List XQ) (preds : Nat → List (Nat × XQ) → List (Nat × XQ))
    (rows : List (Nat × XQ)) : List (Nat × XQ) :=
  ((List.range (bps.length - 1)).map
    (fun i => preds i (rows.filter (fun r => predictSegmentMember bps i r.2)))).flatten

/-- The nested models of the counterexample: each segment model returns
its input rows unchanged (any index-preserving predictor works). -/
def idPreds : Nat → List (Nat × XQ) → List (Nat × XQ) := fun _ l => l

lemma XQ.le_trans' {a b c : XQ} (h1 : a.le b = true) (h2 : b.le c = true) :
    a.le c = true := by
  cases a <;> cases b <;> cases c <;> (try simp_all [XQ.le]) <;> linarith

lemma XQ.not_lt_of_le' {b x : XQ} (h : b.le x = true) : x.lt b = false := by
  cases b <;> cases x <;> (try simp_all [XQ.le, XQ.lt]) <;> linarith

lemma XQ.lt_of_not_le' {b : XQ} (q : ℚ) (hb : b ≠ XQ.nan)
    (h : b.le (XQ.fin q) = false) : (XQ.fin q).lt b = true := by
  cases b <;> simp_all [XQ.le, XQ.lt] <;> linarith

lemma all_not_le (bps : List XQ) (q : ℚ)
    (hsorted : bps.Pairwise (fun a b => a.le b = true))
    (hhead : ∀ b₀, bps.head? = some b₀ → b₀.le (XQ.fin q) = false) :
    ∀ b ∈ bps, b.le (XQ.fin q) = false := by
  cases bps with
  | nil => intro b hb; simp at hb
  | cons b₁ tail =>
    intro b hb
    have hb₁ : b₁.le (XQ.fin q) = false := hhead b₁ rfl
    rcases List.mem_cons.mp hb with rfl | hbt
    · exact hb₁
    · by_contra hbx
      have hbx' : b.le (XQ.fin q) = true := by
        cases h : b.le (XQ.fin q)
        · exact absurd h hbx
        · rfl
      have h12 : b₁.le b = true := List.rel_of_pairwise_cons hsorted hbt
      have := XQ.le_trans' h12 hbx'
      rw [this] at hb₁
      exact Bool.true_eq_false.mp hb₁

lemma segment_count_zero :
    ∀ (bps : List XQ) (q : ℚ),
      (∀ b ∈ bps, b.le (XQ.fin q) = false) →
      (List.range (bps.length - 1)).countP
        (fun i => predictSegmentMember bps i (XQ.fin q)) = 0
  | [], _, _ => rfl
  | [_], _, _ => rfl
  | b₁ :: b₂ :: rest, q, hall => by
    have hrec := segment_count_zero (b₂ :: rest) q
      (fun b hb => hall b (by simp [List.mem_cons.mp hb]))
    have hlen : (b₁ :: b₂ :: rest).length - 1 = ((b₂ :: rest).length - 1) + 1 := by
      simp
    rw [hlen, List.range_succ_eq_map, List.countP_cons, List.countP_map]
    have hp0 : predictSegmentMember (b₁ :: b₂ :: rest) 0 (XQ.fin q) = false := by
      have hb₁ : b₁.le (XQ.fin q) = false := hall b₁ (by simp)
      simp [predictSegmentMember, hb₁]
    have hshift : (fun i => predictSegmentMember (b₁ :: b₂ :: rest) (Nat.succ i) (XQ.fin q))
        = fun i => predictSegmentMember (b₂ :: rest) i (XQ.fin q) := rfl
    rw [hp0]
    simpa [Function.comp] using hrec

lemma segment_count_one :
    ∀ (bps : List XQ) (q : ℚ),
      bps.Pairwise (fun a b => a.le b = true) →
      (∀ b ∈ bps, b ≠ XQ.nan) →
      (∃ b₀, bps.head? = some b₀ ∧ b₀.le (XQ.fin q) = true) →
      (∃ bl, bps.getLast? = some bl ∧ (XQ.fin q).lt bl = true) →
      (List.range (bps.length - 1)).countP
        (fun i => predictSegmentMember bps i (XQ.fin q)) = 1
  | [], q, _, _, hhead, _ => by
    rcases hhead with ⟨b₀, hh, -⟩
    simp at hh
  | [b], q, _, _, hhead, hlast => by
    rcases hhead with ⟨b₀, hh, hble⟩
    rcases hlast with ⟨bl, hl, hxlt⟩
    have hb₀ : b = b₀ := by simpa using hh
    have hbl : b = bl := by simpa using hl
    subst hb₀
    subst hbl
    rw [XQ.not_lt_of_le' hble] at hxlt
    exact absurd hxlt (by simp)
  | b₁ :: b₂ :: rest, q, hsorted, hnn, hhead, hlast => by
    rcases hhead with ⟨b₀, hh, hble⟩
    have hb₀ : b₁ = b₀ := by simpa using hh
    subst hb₀
    rcases hlast with ⟨bl, hl, hxlt⟩
    have hl' : (b₂ :: rest).getLast? = some bl := by
      rw [← List.getLast?_cons_cons]
      exact hl
    have hsorted' : (b₂ :: rest).Pairwise (fun a b => a.le b = true) :=
      hsorted.of_cons
    have hnn' : ∀ b ∈ b₂ :: rest, b ≠ XQ.nan := fun b hb => hnn b (by simp [hb])
    have hb₂nn : b₂ ≠ XQ.nan := hnn' b₂ (by simp)
    have hlen : (b₁ :: b₂ :: rest).length - 1 = ((b₂ :: rest).length - 1) + 1 := by
      simp
    rw [hlen, List.range_succ_eq_map, List.countP_cons, List.countP_map]
    by_cases hb₂ : b₂.le (XQ.fin q) = true
    · have hxb₂ : (XQ.fin q).lt b₂ = false := XQ.not_lt_of_le' hb₂
      have hp0 : predictSegmentMember (b₁ :: b₂ :: rest) 0 (XQ.fin q) = false := by
        simp [predictSegmentMember, hxb₂]
      have hrec := segment_count_one (b₂ :: rest) q hsorted' hnn'
        ⟨b₂, rfl, hb₂⟩ ⟨bl, hl', hxlt⟩
      rw [hp0]
      simpa [Function.comp] using hrec
    · have hb₂f : b₂.le (XQ.fin q) = false := by
        cases h : b₂.le (XQ.fin q)
        · rfl
        · exact absurd h hb₂
      have hxb₂ : (XQ.fin q).lt b₂ = true := XQ.lt_of_not_le' q hb₂nn hb₂f
      have hp0 : predictSegmentMember (b₁ :: b₂ :: rest) 0 (XQ.fin q) = true := by
        simp [predictSegmentMember, hble, hxb₂]
      have hall : ∀ b ∈ b₂ :: rest, b.le (XQ.fin q) = false :=
        all_not_le (b₂ :: rest) q hsorted'
          (fun b₀' hb₀' => by
            have hb : b₂ = b₀' := by simpa using hb₀'
            rw [← hb]
            exact hb₂f)
      have h0 := segment_count_zero (b₂ :: rest) q hall
      rw [hp0]
      simpa [Function.comp] using h0

lemma flatten_ite_cons_perm (g : Nat → List (Nat × XQ)) (r : Nat × XQ)
    (pr : Nat → Bool) :
    ∀ L : List Nat, L.countP pr = 1 →
      List.Perm ((L.map (fun i => if pr i then r :: g i else g i)).flatten)
        (r :: (L.map g).flatten) := by
  intro L
  induction L with
  | nil => intro h; simp at h
  | cons i L ih =>
    intro h
    rw [List.countP_cons] at h
    cases hi : pr i with
    | true =>
      have hL : L.countP pr = 0 := by
        rw [if_pos hi] at h
        omega
      have hmap : L.map (fun j => if pr j then r :: g j else g j) = L.map g := by
        refine List.map_congr_left (fun j hj => ?_)
        have hj' : ¬ pr j = true := by
          intro hpj
          have := List.countP_pos_iff.mpr ⟨j, hj, hpj⟩
          omega
        simp [hj']
      simp only [List.map_cons, List.flatten_cons, hi, if_true, hmap]
      rw [List.cons_append]
    | false =>
      have hL : L.countP pr = 1 := by
        rw [if_neg (by simp [hi])] at h
        omega
      simp only [List.map_cons, List.flatten_cons, hi, Bool.false_eq_true, if_false]
      exact ((ih hL).append_left (g i)).trans List.perm_middle

lemma dispatch_filter_perm (p : Nat → Nat × XQ → Bool) (L : List Nat) :
    ∀ rows : List (Nat × XQ),
      (∀ r ∈ rows, L.countP (fun i => p i r) = 1) →
      List.Perm ((L.map (fun i => rows.filter (p i))).flatten) rows := by
  intro rows
  induction rows with
  | nil =>
    intro _
    have : L.map (fun i => List.filter (p i) []) = L.map (fun _ => ([] : List (Nat × XQ))) := by
      simp
    rw [this]
    simp [List.flatten_eq_nil_iff]
  | cons r rows ih =>
    intro hyp
    have h1 : L.countP (fun i => p i r) = 1 := hyp r (by simp)
    have hrows : ∀ r' ∈ rows, L.countP (fun i => p i r') = 1 :=
      fun r' hr' => hyp r' (by simp [hr'])
    have hmap : L.map (fun i => (r :: rows).filter (p i))
        = L.map (fun i => if p i r then r :: rows.filter (p i) else rows.filter (p i)) := by
      refine List.map_congr_left (fun i _ => ?_)
      rw [List.filter_cons]
    rw [hmap]
    exact (flatten_ite_cons_perm (fun i => rows.filter (p i)) r (fun i => p i r) L h1).trans
      ((ih hrows).cons r)

/-- C7 (amended): the Compound predict dispatches each input row to the
segment whose half-open range contains its explanatory value and
concatenates the per-segment prediction results in segment order; with
breakpoints bracketed by the infinities and sorted, the dispatched rows
are, as a multiset, exactly the input rows with non-missing values
(each row reaches exactly one nested model) — but the concatenation is
returned as is, not re-sorted into the original index order. -/
theorem compoundPredict_dispatch_partition (bps : List XQ)
    (preds : Nat → List (Nat × XQ) → List (Nat × XQ)) (rows : List (Nat × XQ))
    (hsorted : bps.Pairwise (fun a b => a.le b = true))
    (hhead : bps.head? = some XQ.ninf)
    (hlast : bps.getLast? = some XQ.inf)
    (hfin : ∀ r ∈ rows, ∃ q : ℚ, r.2 = XQ.fin q) :
    compoundPredict bps preds rows
      = ((List.range (bps.length - 1)).map
          (fun i => preds i (rows.filter (fun r => predictSegmentMember bps i r.2)))).flatten
    ∧ List.Perm
        (((List.range (bps.length - 1)).map
          (fun i => rows.filter (fun r => predictSegmentMember bps i r.2))).flatten)
        rows := by
  have hnn : ∀ b ∈ bps, b ≠ XQ.nan := by
    cases bps with
    | nil => simp at hhead
    | cons b₁ tail =>
      have hb₁ : b₁ = XQ.ninf := by simpa using hhead
      subst hb₁
      intro b hb
      rcases List.mem_cons.mp hb with rfl | hbt
      · intro h
        exact absurd h (by simp)
      · have hle : XQ.ninf.le b = true := List.rel_of_pairwise_cons hsorted hbt
        intro h
        rw [h] at hle
        exact absurd hle (by simp [XQ.le])
  refine ⟨rfl, ?_⟩
  refine dispatch_filter_perm (fun i r => predictSegmentMember bps i r.2)
    (List.range (bps.length - 1)) rows (fun r hr => ?_)
  obtain ⟨q, hq⟩ := hfin r hr
  show (List.range (bps.length - 1)).countP
    (fun i => predictSegmentMember bps i r.2) = 1
  rw [hq]
  exact segment_count_one bps q hsorted hnn
    ⟨XQ.ninf, hhead, rfl⟩ ⟨XQ.inf, hlast, rfl⟩

/-- Witness for the amended C7 theorem at a concrete compound model: two
segments split at 5, two rows, identity segment predictors. -/
theorem compoundPredict_dispatch_partition_witness :
    compoundPredict [XQ.ninf, XQ.fin 5, XQ.inf] idPreds [(0, XQ.fin 1), (1, XQ.fin 7)]
      = ((List.range 2).map
          (fun i => idPreds i ([(0, XQ.fin 1), (1, XQ.fin 7)].filter
            (fun r => predictSegmentMember [XQ.ninf, XQ.fin 5, XQ.inf] i r.2)))).flatten
    ∧ List.Perm
        (((List.range 2).map
          (fun i => [(0, XQ.fin 1), (1, XQ.fin 7)].filter
            (fun r => predictSegmentMember [XQ.ninf, XQ.fin 5, XQ.inf] i r.2))).flatten)
        [(0, XQ.fin 1), (1, XQ.fin 7)] :=
  compoundPredict_dispatch_partition [XQ.ninf, XQ.fin 5, XQ.inf] idPreds
    [(0, XQ.fin 1), (1, XQ.fin 7)] (by decide) (by decide) (by decide)
    (by
      intro r hr
      rcases List.mem_cons.mp hr with rfl | hr'
      · exact ⟨1, rfl⟩
      · rcases List.mem_cons.mp hr' with rfl | hr''
        · exact ⟨7, rfl⟩
        · simp at hr'')

/-- C7 counterexample: with breakpoints `[-inf, 5, inf]` and input rows
indexed `0, 1` whose explanatory values fall in the second and first
segment respectively, predict returns the segment-order concatenation
`[(1, ...), (0, ...)]` — the original index order `0, 1` is not
restored. -/
theorem compoundPredict_not_resorted :
    compoundPredict [XQ.ninf, XQ.fin 5, XQ.inf] idPreds
        [(0, XQ.fin 10), (1, XQ.fin 1)]
      = [(1, XQ.fin 1), (0, XQ.fin 10)] ∧
    (compoundPredict [XQ.ninf, XQ.fin 5, XQ.inf] idPreds
        [(0, XQ.fin 10), (1, XQ.fin 1)]).map Prod.fst
      ≠ [(0, XQ.fin 10), (1, XQ.fin 1)].map Prod.fst := by
  decide

/-! ## Variable transforms (C8) -/

/-- The keys of `RatingModel._transform_functions`. -/
inductive Transform where
  | identity
  | log
  | log10
  | pow2
  deriving DecidableEq, Repr

/-- `RatingModel._transform_functions`: identity, `np.log`, `np.log10`,
`power(x, 2)`. -/
noncomputable def transformFunc : Transform → ℝ → ℝ
  | Transform.identity => fun x => x
  | Transform.log => Real.log
  | Transform.log10 => fun x => Real.logb 10 x
  | Transform.pow2 => fun x => x ^ 2

/-- `RatingModel._inverse_transform_functions`: identity, `np.exp`,
`power(10, x)`, `power(x, 1/2)` (the real square root; on the negative
inputs where NumPy would produce NaN, `ℝ` has no NaN and `Real.sqrt`
returns 0 — both differ from the identity round-trip, which is all the
claims need). -/
noncomputable def inverseTransformFunc : Transform → ℝ → ℝ
  | Transform.identity => fun x => x
  | Transform.log => Real.exp
  | Transform.log10 => fun x => (10 : ℝ) ^ x
  | Transform.pow2 => Real.sqrt

/-- C8 counterexample: the square transform does not round-trip on the
negative part of its domain: `power(-1, 2) = 1` and `power(1, 1/2) = 1`,
which is not `-1`. -/
theorem transform_roundtrip_counterexample :
    inverseTransformFunc Transform.pow2 (transformFunc Transform.pow2 (-1)) = 1 ∧
    (1 : ℝ) ≠ -1 := by
  constructor
  · show Real.sqrt ((-1 : ℝ) ^ 2) = 1
    rw [show ((-1 : ℝ) ^ 2) = 1 by norm_num, Real.sqrt_one]
  · norm_num

/-- C8 (amended): `inverse_transform(transform(x)) = x` for the identity
transform everywhere, for `log` and `log10` on `x > 0`, and for the
square transform on `x ≥ 0` only. -/
theorem transform_roundtrip_amended :
    (∀ x : ℝ, inverseTransformFunc Transform.identity
        (transformFunc Transform.identity x) = x) ∧
    (∀ x : ℝ, 0 < x → inverseTransformFunc Transform.log
        (transformFunc Transform.log x) = x) ∧
    (∀ x : ℝ, 0 < x → inverseTransformFunc Transform.log10
        (transformFunc Transform.log10 x) = x) ∧
    (∀ x : ℝ, 0 ≤ x → inverseTransformFunc Transform.pow2
        (transformFunc Transform.pow2 x) = x) :=
  ⟨fun _ => rfl,
   fun x hx => Real.exp_log hx,
   fun x hx => Real.rpow_logb (by norm_num) (by norm_num) hx,
   fun x hx => Real.sqrt_sq hx⟩

/-- Witness for the amended C8 theorem at `x = 2`. -/
theorem transform_roundtrip_amended_witness :
    inverseTransformFunc Transform.identity (transformFunc Transform.identity 2) = 2 ∧
    inverseTransformFunc Transform.log (transformFunc Transform.log 2) = 2 ∧
    inverseTransformFunc Transform.log10 (transformFunc Transform.log10 2) = 2 ∧
    inverseTransformFunc Transform.pow2 (transformFunc Transform.pow2 2) = 2 :=
  ⟨transform_roundtrip_amended.1 2,
   transform_roundtrip_amended.2.1 2 (by norm_num),
   transform_roundtrip_amended.2.2.1 2 (by norm_num),
   transform_roundtrip_amended.2.2.2 2 (by norm_num)⟩

end Said
